import Mathlib

/-!
# Verification of `message_analysis.py` (fb-messenger-analyzer)

A shallow embedding of the message-analysis pipeline: locale/timezone-aware
date parsing, regex-based streaming extraction of message fragments from an
HTML export, a content-addressed CSV cache, and per-user weekday/month/hour
aggregation.  Strings are modelled as `List Char`; machine integers as `Nat`
with explicit `% 2^32` where overflow matters (MD5); fallible operations
return `Option` or `Except`.
-/

set_option maxRecDepth 100000

namespace MessageAnalysis

/-- Text is modelled as a list of characters. -/
abbrev Str := List Char

/-- Python `str.split(sep)` for a one-character separator: keeps empty pieces,
`"".split(' ') = ['']`. -/
def splitOnCh (sep : Char) : Str → List Str
  | [] => [[]]
  | c :: rest =>
    let r := splitOnCh sep rest
    if c = sep then [] :: r
    else
      match r with
      | [] => [[c]]
      | s :: ss => (c :: s) :: ss

theorem splitOnCh_ne_nil (sep : Char) (cs : Str) : splitOnCh sep cs ≠ [] := by
  induction cs with
  | nil => simp [splitOnCh]
  | cons c rest ih =>
    simp only [splitOnCh]
    split
    · simp
    · match h : splitOnCh sep rest with
      | [] => exact absurd h ih
      | s :: ss => simp [h]

theorem mem_splitOnCh_ne_sep {sep : Char} {cs : Str} {seg : Str}
    (hseg : seg ∈ splitOnCh sep cs) : ∀ c ∈ seg, c ≠ sep := by
  induction cs generalizing seg with
  | nil =>
    simp [splitOnCh] at hseg
    subst hseg; simp
  | cons c rest ih =>
    simp only [splitOnCh] at hseg
    by_cases hc : c = sep
    · rw [if_pos hc] at hseg
      rcases List.mem_cons.mp hseg with h | h
      · subst h; simp
      · exact ih h
    · rw [if_neg hc] at hseg
      match h : splitOnCh sep rest with
      | [] => exact absurd h (splitOnCh_ne_nil sep rest)
      | s :: ss =>
        rw [h] at hseg
        rcases List.mem_cons.mp hseg with h2 | h2
        · subst h2
          intro a ha
          rcases List.mem_cons.mp ha with h3 | h3
          · subst h3; exact hc
          · exact ih (h ▸ List.mem_cons_self s ss) a h3
        · exact ih (h ▸ List.mem_cons_of_mem s h2)

/-- Decimal digit character, `digitCh d = '0' + d` for `d ≤ 9`. -/
def digitCh : Nat → Char
  | 0 => '0' | 1 => '1' | 2 => '2' | 3 => '3' | 4 => '4'
  | 5 => '5' | 6 => '6' | 7 => '7' | 8 => '8' | 9 => '9'
  | _ + 10 => '0'

/-- Value of a decimal digit character. -/
def digitVal (c : Char) : Option Nat :=
  if 48 ≤ c.toNat ∧ c.toNat ≤ 57 then some (c.toNat - 48) else none

theorem digitVal_digitCh {d : Nat} (h : d ≤ 9) : digitVal (digitCh d) = some d := by
  interval_cases d <;> rfl

theorem digitCh_ne_nl (d : Nat) : digitCh d ≠ '\n' := by
  unfold digitCh; split <;> decide

/-- Digits-only decimal number parse; `none` on empty or non-digit input. -/
def decDigits (s : Str) : Option Nat :=
  if s = [] then none
  else s.foldl (fun acc c => acc.bind fun a => (digitVal c).map fun d => 10 * a + d) (some 0)

/-- Python 2 `int(str)`: optional sign followed by decimal digits
(ASCII inputs; this program's tokens contain no whitespace). -/
def pyInt : Str → Option Int
  | [] => none
  | '-' :: rest => (decDigits rest).map fun n => -(n : Int)
  | '+' :: rest => (decDigits rest).map fun n => (n : Int)
  | s => (decDigits s).map fun n => (n : Int)

/-- `list(calendar.month_name)` under the `en_US` locale the program sets for
parsing: index 0 is the empty string, then the twelve full month names. -/
def month_name : List Str :=
  [[], "January".data, "February".data, "March".data, "April".data,
   "May".data, "June".data, "July".data, "August".data, "September".data,
   "October".data, "November".data, "December".data]

/-- Python `list.index`: index of the first equal element, error as `none`. -/
def idxOf : List Str → Str → Option Nat
  | [], _ => none
  | x :: xs, s => if x = s then some 0 else (idxOf xs s).map (· + 1)

/-- Python 2 `str.capitalize()` for ASCII byte strings. -/
def pyCapitalize : Str → Str
  | [] => []
  | c :: rest => c.toUpper :: rest.map Char.toLower

/-- The hardcoded two-entry timezone table (`tz` in the source), as the UTC
offset in minutes that attaching the table's `tzinfo` to a naive `datetime`
produces.  `pytz.utc` gives +00:00; `pytz.timezone('Europe/Stockholm')` used
directly as a constructor `tzinfo` yields pytz's first (LMT) transition
offset +01:12, i.e. 72 minutes. -/
def tz (s : Str) : Option Int :=
  if s = "UTC+01".data then some 72
  else if s = "UTC".data then some 0
  else none

/-- An absolute timestamp with timezone: the fields of a Python `datetime`
(seconds resolution; `parse_datetime` always constructs `second = 0`) plus
its UTC offset in minutes. -/
structure Datetime where
  year : Nat
  month : Nat
  day : Nat
  hour : Nat
  minute : Nat
  second : Nat
  offMin : Int
deriving DecidableEq

def isLeap (y : Nat) : Bool :=
  (y % 4 == 0 && y % 100 != 0) || y % 400 == 0

def daysInMonth (y m : Nat) : Nat :=
  if m = 2 then (if isLeap y then 29 else 28)
  else if m = 4 ∨ m = 6 ∨ m = 9 ∨ m = 11 then 30
  else 31

/-- The `datetime.datetime` constructor's validation: year 1–9999, month
1–12, day 1–length of the month, hour 0–23, minute 0–59. -/
def mkDatetime (y mo d h mi off : Int) : Option Datetime :=
  if 1 ≤ y ∧ y ≤ 9999 ∧ 1 ≤ mo ∧ mo ≤ 12 ∧ 1 ≤ d ∧
     d ≤ (daysInMonth y.toNat mo.toNat : Int) ∧
     0 ≤ h ∧ h ≤ 23 ∧ 0 ≤ mi ∧ mi ≤ 59
  then some ⟨y.toNat, mo.toNat, d.toNat, h.toNat, mi.toNat, 0, off⟩
  else none

/-- `h, m = map(int, parts[5].split(':'))`: exactly two colon-separated
integer components. -/
def timeOf (t : Str) : Option (Int × Int) :=
  match splitOnCh ':' t with
  | [a, b] => do
      let hh ← pyInt a
      let mm ← pyInt b
      pure (hh, mm)
  | _ => none

/-- `parse_datetime` from the source, with the locale-dependent
`calendar.month_name` table passed explicitly: split on single spaces, read
`h:m` from token 5, year from token 3, month by capitalised full-name lookup
from token 2, day from token 1 and the timezone label from token 6 (token 0,
token 4 and tokens beyond the 7th are never read). -/
def parse_datetime_loc (months : List Str) (s : Str) : Option Datetime := do
  let parts := splitOnCh ' ' s
  let tTok ← parts.get? 5
  let hm ← timeOf tTok
  let y ← (parts.get? 3).bind pyInt
  let moTok ← parts.get? 2
  let moIdx ← idxOf months (pyCapitalize moTok)
  let d ← (parts.get? 1).bind pyInt
  let tzTok ← parts.get? 6
  let off ← tz tzTok
  mkDatetime y (moIdx : Int) d hm.1 hm.2 off

/-- `parse_datetime` as the program runs it: the month table is the one
`locale.setlocale(LC_ALL, source_locale)` installs, `en_US`. -/
def parse_datetime : Str → Option Datetime :=
  parse_datetime_loc month_name

/-- Zeller's congruence shifted to Python's `datetime.weekday()` convention:
0 = Monday … 6 = Sunday. -/
def weekdayAt (y m d : Nat) : Nat :=
  let yy := if m < 3 then y - 1 else y
  let mm := if m < 3 then m + 12 else m
  ((d + 13 * (mm + 1) / 5 + yy % 100 + yy % 100 / 4 + yy / 100 / 4 + 5 * (yy / 100)) % 7 + 5) % 7

def Datetime.weekday (dt : Datetime) : Nat := weekdayAt dt.year dt.month dt.day

theorem weekdayAt_le (y m d : Nat) : weekdayAt y m d ≤ 6 := by
  unfold weekdayAt
  exact Nat.lt_succ_iff.mp (Nat.mod_lt _ (by norm_num))

def pad2 (n : Nat) : Str := [digitCh (n / 10), digitCh (n % 10)]

def pad4 (n : Nat) : Str :=
  [digitCh (n / 1000), digitCh (n / 100 % 10), digitCh (n / 10 % 10), digitCh (n % 10)]

/-- The `±HH:MM` suffix `datetime.isoformat()` prints for an aware datetime. -/
def offText (off : Int) : Str :=
  (if off < 0 then '-' else '+') :: (pad2 (off.natAbs / 60) ++ ':' :: pad2 (off.natAbs % 60))

/-- `datetime.isoformat()`: `YYYY-MM-DDTHH:MM:SS±HH:MM` (microseconds are 0
for every datetime this program builds, so they are omitted). -/
def Datetime.isoformat (dt : Datetime) : Str :=
  pad4 dt.year ++ '-' :: pad2 dt.month ++ '-' :: pad2 dt.day ++ 'T' :: pad2 dt.hour
    ++ ':' :: pad2 dt.minute ++ ':' :: pad2 dt.second ++ offText dt.offMin

def dig2 (a b : Char) : Option Nat := do
  let x ← digitVal a
  let y ← digitVal b
  pure (10 * x + y)

def dig4 (a b c d : Char) : Option Nat := do
  let x ← digitVal a
  let y ← digitVal b
  let z ← digitVal c
  let w ← digitVal d
  pure (1000 * x + 100 * y + 10 * z + w)

/-- `dateutil.parser.parse` restricted to the ISO-8601 strings this program's
cache rows contain (`YYYY-MM-DDTHH:MM:SS±HH:MM`), with dateutil's range
validation. -/
def dateutil_parse (s : Str) : Option Datetime :=
  match s with
  | [y1, y2, y3, y4, '-', m1, m2, '-', d1, d2, 'T', h1, h2, ':', i1, i2, ':',
     s1, s2, sg, o1, o2, ':', o3, o4] => do
      let y ← dig4 y1 y2 y3 y4
      let mo ← dig2 m1 m2
      let dd ← dig2 d1 d2
      let hh ← dig2 h1 h2
      let mi ← dig2 i1 i2
      let ss ← dig2 s1 s2
      let oh ← dig2 o1 o2
      let om ← dig2 o3 o4
      let off ← if sg = '+' then some ((oh * 60 + om : Int))
                else if sg = '-' then some (-(oh * 60 + om : Int))
                else none
      if 1 ≤ y ∧ 1 ≤ mo ∧ mo ≤ 12 ∧ 1 ≤ dd ∧ dd ≤ daysInMonth y mo ∧
         hh ≤ 23 ∧ mi ≤ 59 ∧ ss ≤ 59
      then some ⟨y, mo, dd, hh, mi, ss, off⟩
      else none
  | _ => none

/-- The datetimes this program constructs: constructor-validated fields and a
UTC offset below a day in magnitude. -/
def ValidDT (dt : Datetime) : Prop :=
  1 ≤ dt.year ∧ dt.year ≤ 9999 ∧ 1 ≤ dt.month ∧ dt.month ≤ 12 ∧
  1 ≤ dt.day ∧ dt.day ≤ daysInMonth dt.year dt.month ∧
  dt.hour ≤ 23 ∧ dt.minute ≤ 59 ∧ dt.second ≤ 59 ∧ dt.offMin.natAbs ≤ 1439

/-! ## MD5 (`hashlib.md5(...).hexdigest()`), RFC 1321 -/

/-- Reduce to a 32-bit word. -/
def m32 (x : Nat) : Nat := x % 4294967296

/-- Bitwise complement on 32-bit words. -/
def not32 (x : Nat) : Nat := 4294967295 - x

/-- Left rotation of a 32-bit word. -/
def rotl (x n : Nat) : Nat := m32 (x <<< n) ||| (x >>> (32 - n))

/-- The 64 MD5 sine-derived constants. -/
def md5K : List Nat :=
  [0xd76aa478, 0xe8c7b756, 0x242070db, 0xc1bdceee,
   0xf57c0faf, 0x4787c62a, 0xa8304613, 0xfd469501,
   0x698098d8, 0x8b44f7af, 0xffff5bb1, 0x895cd7be,
   0x6b901122, 0xfd987193, 0xa679438e, 0x49b40821,
   0xf61e2562, 0xc040b340, 0x265e5a51, 0xe9b6c7aa,
   0xd62f105d, 0x02441453, 0xd8a1e681, 0xe7d3fbc8,
   0x21e1cde6, 0xc33707d6, 0xf4d50d87, 0x455a14ed,
   0xa9e3e905, 0xfcefa3f8, 0x676f02d9, 0x8d2a4c8a,
   0xfffa3942, 0x8771f681, 0x6d9d6122, 0xfde5380c,
   0xa4beea44, 0x4bdecfa9, 0xf6bb4b60, 0xbebfbc70,
   0x289b7ec6, 0xeaa127fa, 0xd4ef3085, 0x04881d05,
   0xd9d4d039, 0xe6db99e5, 0x1fa27cf8, 0xc4ac5665,
   0xf4292244, 0x432aff97, 0xab9423a7, 0xfc93a039,
   0x655b59c3, 0x8f0ccc92, 0xffeff47d, 0x85845dd1,
   0x6fa87e4f, 0xfe2ce6e0, 0xa3014314, 0x4e0811a1,
   0xf7537e82, 0xbd3af235, 0x2ad7d2bb, 0xeb86d391]

/-- The per-round left-rotation amounts. -/
def md5S : List Nat :=
  [7, 12, 17, 22, 7, 12, 17, 22, 7, 12, 17, 22, 7, 12, 17, 22,
   5, 9, 14, 20, 5, 9, 14, 20, 5, 9, 14, 20, 5, 9, 14, 20,
   4, 11, 16, 23, 4, 11, 16, 23, 4, 11, 16, 23, 4, 11, 16, 23,
   6, 10, 15, 21, 6, 10, 15, 21, 6, 10, 15, 21, 6, 10, 15, 21]

def md5F (i b c d : Nat) : Nat :=
  if i < 16 then (b &&& c) ||| (not32 b &&& d)
  else if i < 32 then (d &&& b) ||| (not32 d &&& c)
  else if i < 48 then b ^^^ c ^^^ d
  else c ^^^ (b ||| not32 d)

def md5G (i : Nat) : Nat :=
  if i < 16 then i
  else if i < 32 then (5 * i + 1) % 16
  else if i < 48 then (3 * i + 5) % 16
  else (7 * i) % 16

def md5Round (M : List Nat) (st : Nat × Nat × Nat × Nat) (i : Nat) : Nat × Nat × Nat × Nat :=
  let (a, b, c, d) := st
  let f := md5F i b c d
  let a2 := m32 (b + rotl (m32 (a + f + md5K.getD i 0 + M.getD (md5G i) 0)) (md5S.getD i 0))
  (d, a2, b, c)

/-- Pack 64 bytes into 16 little-endian 32-bit words. -/
def toWords : List Nat → List Nat
  | b0 :: b1 :: b2 :: b3 :: rest =>
      (b0 + 256 * b1 + 65536 * b2 + 16777216 * b3) :: toWords rest
  | _ => []

/-- MD5 padding: a 0x80 byte, zeros to 56 mod 64, then the bit length as
eight little-endian bytes. -/
def md5Pad (msg : List Nat) : List Nat :=
  let len := msg.length
  msg ++ 128 :: List.replicate ((119 - len % 64) % 64) 0
      ++ (List.range 8).map fun i => ((len * 8) >>> (8 * i)) % 256

def chunk64F : Nat → List Nat → List (List Nat)
  | _, [] => []
  | 0, _ :: _ => []
  | fuel + 1, x :: rest => (x :: rest).take 64 :: chunk64F fuel ((x :: rest).drop 64)

/-- The 64-byte blocks of a padded message (the fuel, one unit per list
element, always suffices since each step consumes at least one element). -/
def chunk64 (l : List Nat) : List (List Nat) := chunk64F l.length l

def md5Block (st : Nat × Nat × Nat × Nat) (block : List Nat) : Nat × Nat × Nat × Nat :=
  let M := toWords block
  let (a0, b0, c0, d0) := st
  let (a, b, c, d) := (List.range 64).foldl (md5Round M) st
  (m32 (a0 + a), m32 (b0 + b), m32 (c0 + c), m32 (d0 + d))

def hexCh : Nat → Char
  | 0 => '0' | 1 => '1' | 2 => '2' | 3 => '3' | 4 => '4'
  | 5 => '5' | 6 => '6' | 7 => '7' | 8 => '8' | 9 => '9'
  | 10 => 'a' | 11 => 'b' | 12 => 'c' | 13 => 'd' | 14 => 'e' | 15 => 'f'
  | _ + 16 => '0'

/-- A 32-bit word as eight hex characters, little-endian byte order. -/
def wordHex (w : Nat) : Str :=
  ((List.range 4).map fun i =>
      let b := (w >>> (8 * i)) % 256
      [hexCh (b / 16), hexCh (b % 16)]).flatten

/-- `hashlib.md5(bytes).hexdigest()` over a byte list. -/
def md5hex (msg : List Nat) : Str :=
  match (chunk64 (md5Pad msg)).foldl md5Block (0x67452301, 0xefcdab89, 0x98badcfe, 0x10325476) with
  | (a, b, c, d) => wordHex a ++ wordHex b ++ wordHex c ++ wordHex d

/-- The file is read as bytes; the inputs modelled here are ASCII, so the
byte sequence is the character-code sequence. -/
def md5hexStr (s : Str) : Str := md5hex (s.map Char.toNat)

/-! ## Message extraction

The source scans `'\n'.join(fileinput.input(file_path))` with the regular
expression `<div class="message">.*?</p>` (no DOTALL, so `.` never matches a
newline and every match lies within one newline-free segment), then feeds
each match to BeautifulSoup and takes the text of the first element of class
`user`, the first `p` element and the first element of class `meta`.  In the
export format those three are leaf elements, which is what the extraction
model below implements. -/

deriving instance DecidableEq for Except

/-- A message record: `Message = namedtuple('Message', ['user', 'message', 'created'])`. -/
structure Message where
  user : Str
  message : Str
  created : Datetime
deriving DecidableEq

/-- The distinguishable ways `parse_message_from_html` can fail (IndexError
on a missing sub-element, or a timestamp `parse_datetime` rejects); the
spec's `ExtractionError`. -/
inductive ExtractionError where
  | missingUser
  | missingBody
  | missingMeta
  | badTimestamp
deriving DecidableEq

/-- Split the input at the first occurrence of `pat`, returning the prefix
extended through `pat` and the remaining suffix; `none` when `pat` does not
occur. -/
def takeThroughPat (pat : Str) : Str → Option (Str × Str)
  | [] => none
  | c :: cs =>
      if pat.isPrefixOf (c :: cs) then some (pat, (c :: cs).drop pat.length)
      else
        match takeThroughPat pat cs with
        | none => none
        | some (m, r) => some (c :: m, r)

/-- The suffix after the first occurrence of `pat`. -/
def dropThroughPat (pat : Str) (cs : Str) : Option Str :=
  (takeThroughPat pat cs).map (·.2)

theorem takeThroughPat_length {pat cs m r : Str}
    (h : takeThroughPat pat cs = some (m, r)) : r.length + pat.length ≤ cs.length := by
  induction cs generalizing m r with
  | nil => simp [takeThroughPat] at h
  | cons c cs ih =>
    unfold takeThroughPat at h
    split at h
    · rename_i hpre
      have hle : pat.length ≤ (c :: cs).length :=
        (List.isPrefixOf_iff_prefix.mp hpre).length_le
      simp only [Option.some.injEq, Prod.mk.injEq] at h
      rcases h with ⟨_, hr⟩
      subst hr
      simp only [List.length_drop]
      omega
    · match h2 : takeThroughPat pat cs with
      | none => rw [h2] at h; simp at h
      | some (m2, r2) =>
        rw [h2] at h
        simp only [Option.some.injEq, Prod.mk.injEq] at h
        rcases h with ⟨_, hr⟩
        subst hr
        have := ih h2
        simp only [List.length_cons]
        omega

theorem takeThroughPat_mem {pat cs m r : Str}
    (h : takeThroughPat pat cs = some (m, r)) :
    (∀ a ∈ m, a ∈ cs) ∧ (∀ a ∈ r, a ∈ cs) := by
  induction cs generalizing m r with
  | nil => simp [takeThroughPat] at h
  | cons c cs ih =>
    unfold takeThroughPat at h
    split at h
    · rename_i hpre
      have hsub : ∀ a ∈ pat, a ∈ c :: cs :=
        fun a ha => (List.isPrefixOf_iff_prefix.mp hpre).subset ha
      simp only [Option.some.injEq, Prod.mk.injEq] at h
      rcases h with ⟨hm, hr⟩
      subst hm; subst hr
      exact ⟨hsub, fun a ha => List.drop_subset _ _ ha⟩
    · match h2 : takeThroughPat pat cs with
      | none => rw [h2] at h; simp at h
      | some (m2, r2) =>
        rw [h2] at h
        simp only [Option.some.injEq, Prod.mk.injEq] at h
        rcases h with ⟨hm, hr⟩
        subst hm; subst hr
        rcases ih h2 with ⟨ihm, ihr⟩
        constructor
        · intro a ha
          rcases List.mem_cons.mp ha with h3 | h3
          · exact h3 ▸ List.mem_cons_self c cs
          · exact List.mem_cons_of_mem c (ihm a h3)
        · exact fun a ha => List.mem_cons_of_mem c (ihr a ha)

theorem dropThroughPat_length {pat cs r : Str}
    (h : dropThroughPat pat cs = some r) : r.length + pat.length ≤ cs.length := by
  unfold dropThroughPat at h
  match h2 : takeThroughPat pat cs with
  | none => rw [h2] at h; simp at h
  | some (m2, r2) =>
    rw [h2] at h
    simp only [Option.map_some', Option.some.injEq] at h
    subst h
    exact takeThroughPat_length h2

theorem dropThroughPat_mem {pat cs r : Str}
    (h : dropThroughPat pat cs = some r) : ∀ a ∈ r, a ∈ cs := by
  unfold dropThroughPat at h
  match h2 : takeThroughPat pat cs with
  | none => rw [h2] at h; simp at h
  | some (m2, r2) =>
    rw [h2] at h
    simp only [Option.map_some', Option.some.injEq] at h
    subst h
    exact (takeThroughPat_mem h2).2

/-- The literal opening of the scan pattern `<div class="message">.*?</p>`. -/
def startTag : Str := "<div class=\"message\">".data

/-- The literal closing of the scan pattern. -/
def endTag : Str := "</p>".data

/-- All matches of `<div class="message">.*?</p>` within one newline-free
segment, leftmost first, non-overlapping, with the lazy `.*?` taking the
shortest extension to the first `</p>`.  When some start literal has no
`</p>` after it, no later start in the segment has one either, so matching
ends. -/
def scanSegmentF : Nat → Str → List Str
  | 0, _ => []
  | fuel + 1, seg =>
      match dropThroughPat startTag seg with
      | none => []
      | some rest1 =>
          match takeThroughPat endTag rest1 with
          | none => []
          | some (m, r) => (startTag ++ m) :: scanSegmentF fuel r

def scanSegment (seg : Str) : List Str := scanSegmentF seg.length seg

/-- One `fileinput` line: everything up to and including the first newline. -/
def breakAfterNl : Str → (Str × Str)
  | [] => ([], [])
  | c :: cs =>
      if c = '\n' then ([c], cs)
      else
        let p := breakAfterNl cs
        (c :: p.1, p.2)

theorem breakAfterNl_append (cs : Str) : (breakAfterNl cs).1 ++ (breakAfterNl cs).2 = cs := by
  induction cs with
  | nil => rfl
  | cons c cs ih =>
    unfold breakAfterNl
    split
    · rfl
    · simpa using ih

theorem breakAfterNl_snd_length (cs : Str) : (breakAfterNl cs).2.length ≤ cs.length := by
  have h := congrArg List.length (breakAfterNl_append cs)
  simp only [List.length_append] at h
  omega

theorem breakAfterNl_fst_pos (c : Char) (cs : Str) : (breakAfterNl (c :: cs)).1 ≠ [] := by
  unfold breakAfterNl
  split
  · simp
  · simp

def pyLinesF : Nat → Str → List Str
  | _, [] => []
  | 0, _ :: _ => []
  | fuel + 1, c :: rest =>
      (breakAfterNl (c :: rest)).1 :: pyLinesF fuel (breakAfterNl (c :: rest)).2

/-- The lines `fileinput.input(file_path)` yields: each keeps its trailing
newline (the fuel, one unit per line, always suffices since every line is
non-empty). -/
def pyLines (cs : Str) : List Str := pyLinesF cs.length cs

/-- Python `sep.join(pieces)` for a one-character separator. -/
def joinSep (sep : Char) : List Str → Str
  | [] => []
  | [l] => l
  | l :: ls => l ++ sep :: joinSep sep ls

/-- The string the source hands to `re.finditer`: `'\n'.join(_input)`, built
from every line of the file at once. -/
def joinedScanInput (content : Str) : Str := joinSep '\n' (pyLines content)

/-- The lazy sequence of regex matches over the whole export.  Because `.`
never matches a newline, matching the joined string is matching each
newline-free segment separately. -/
def scanFragments (content : Str) : List Str :=
  ((splitOnCh '\n' (joinedScanInput content)).map scanSegment).flatten

/-- The attribute pattern BeautifulSoup's `class_=c` filter keys on in the
export format (elements carry a single class). -/
def classPat (c : Str) : Str := "class=\"".data ++ c ++ ['"']

/-- Text content of an element located just after its matched attribute:
skip to the end of the opening tag, then take the text up to the next tag.
Faithful to `find_all(...)[0].text` for the leaf elements of the export. -/
def textAfter (r : Str) : Str := ((r.dropWhile (· ≠ '>')).drop 1).takeWhile (· ≠ '<')

/-- `soup.find_all(class_=c)[0].text` on a fragment (leaf-element model). -/
def findClassText (frag c : Str) : Option Str :=
  (dropThroughPat (classPat c) frag).map textAfter

/-- `soup.find_all('p')[0].text` on a fragment (leaf-element model). -/
def findPText (frag : Str) : Option Str :=
  (dropThroughPat "<p>".data frag).map (·.takeWhile (· ≠ '<'))

/-- `parse_message_from_html`: author from the first `user`-class element,
body from the first `p` element, timestamp from the first `meta`-class
element fed through `parse_datetime`; the first missing piece aborts, in
source order. -/
def parse_message_from_html (frag : Str) : Except ExtractionError Message :=
  match findClassText frag "user".data with
  | none => .error .missingUser
  | some u =>
      match findPText frag with
      | none => .error .missingBody
      | some body =>
          match findClassText frag "meta".data with
          | none => .error .missingMeta
          | some metaTxt =>
              match parse_datetime metaTxt with
              | none => .error .badTimestamp
              | some dt => .ok ⟨u, body, dt⟩

/-! ## CSV cache rows (`csv.writer` with `QUOTE_MINIMAL`, `csv.reader`) -/

/-- `QUOTE_MINIMAL`: a field is quoted iff it contains the delimiter, the
quote character or a CR/LF. -/
def needsQuote (f : Str) : Bool :=
  f.any fun c => c = ',' || c = '"' || c = '\r' || c = '\n'

/-- Double every embedded quote character. -/
def dupQuotes : Str → Str
  | [] => []
  | c :: cs => if c = '"' then '"' :: '"' :: dupQuotes cs else c :: dupQuotes cs

def quoteField (f : Str) : Str :=
  if needsQuote f then '"' :: (dupQuotes f ++ ['"']) else f

/-- `csvwriter.writerow(fields)`: comma-joined minimally-quoted fields with
the writer's default `\r\n` terminator. -/
def csv_write_row (fields : List Str) : Str :=
  joinSep ',' (fields.map quoteField) ++ "\r\n".data

/-- The row the cache build loop writes for one message: user, body and
`created.isoformat()` (UTF-8 encode/decode is the identity on the character
sequence). -/
def csvRow (m : Message) : Str :=
  csv_write_row [m.user, m.message, m.created.isoformat]

/-- Parse a quoted CSV field after its opening quote: `""` is an escaped
quote, the next lone quote closes the field.  Returns the field and the rest
of the line. -/
def unescapeQuoted : Str → Option (Str × Str)
  | [] => none
  | c :: cs =>
      if c = '"' then
        match cs with
        | [] => some ([], [])
        | c2 :: cs2 =>
            if c2 = '"' then (unescapeQuoted cs2).map fun p => ('"' :: p.1, p.2)
            else some ([], cs)
      else (unescapeQuoted cs).map fun p => (c :: p.1, p.2)

theorem unescapeQuoted_length {cs f r : Str}
    (h : unescapeQuoted cs = some (f, r)) : r.length < cs.length := by
  induction cs using unescapeQuoted.induct generalizing f r with
  | case1 => simp [unescapeQuoted] at h
  | case2 =>
    simp [unescapeQuoted] at h
    obtain ⟨-, rfl⟩ := h
    simp
  | case3 cs2 ih =>
    simp [unescapeQuoted] at h
    obtain ⟨a, h2, -⟩ := h
    have := ih h2
    simp only [List.length_cons]
    omega
  | case4 c2 cs2 hc2 =>
    simp [unescapeQuoted, hc2] at h
    obtain ⟨-, hr⟩ := h
    subst hr
    simp only [List.length_cons]
    omega
  | case5 c2 cs2 hc2 ih =>
    rw [unescapeQuoted.eq_def] at h
    simp [hc2] at h
    obtain ⟨a, h2, -⟩ := h
    have := ih h2
    simp only [List.length_cons]
    omega

def parseFieldsF : Nat → Str → Option (List Str)
  | _, [] => some [[]]
  | 0, _ :: _ => none
  | fuel + 1, c :: cs' =>
      if c = '"' then
        match unescapeQuoted cs' with
        | none => none
        | some (f, r) =>
            match r with
            | [] => some [f]
            | c2 :: r' => if c2 = ',' then (parseFieldsF fuel r').map (f :: ·) else none
      else
        match takeThroughPat [','] (c :: cs') with
        | none => some [c :: cs']
        | some (m, r) => (parseFieldsF fuel r).map (m.dropLast :: ·)

/-- `csv.reader` on one line (without its terminator): split into fields at
top-level commas, undoing minimal quoting (the fuel, one unit per field,
always suffices since every field consumes at least one character of the
line). -/
def parseFields (cs : Str) : Option (List Str) := parseFieldsF cs.length cs

/-- Extend the first piece of a split with one character. -/
def consHead (c : Char) : List Str → List Str
  | [] => [[c]]
  | s :: ss => (c :: s) :: ss

/-- One character of the right fold behind `splitCrlf`: a `'\r'` immediately
followed by the `'\n'` that opens the first piece of the remainder's split
closes a piece. -/
def crlfStep (c : Char) (r : List Str) : List Str :=
  if c = '\r' ∧ (r.head?.getD []).head? = some '\n' then
    [] :: (r.head?.getD []).tail :: r.tail
  else consHead c r

/-- Split file content at `\r\n` row terminators. -/
def splitCrlf : Str → List Str
  | [] => [[]]
  | c :: cs => crlfStep c (splitCrlf cs)

/-- The rows `csv.reader` sees when iterating the cache file: the `\r\n`
separated pieces, without the phantom piece after a final terminator. -/
def linesOfContent (content : Str) : List Str :=
  if (splitCrlf content).getLast? = some [] then (splitCrlf content).dropLast
  else splitCrlf content

/-- One step of `parse_message_from_csv` (the generator over `csvreader`):
`Message(line[0].decode('utf-8'), line[1].decode('utf-8'), parser.parse(line[2]))`;
a row with fewer than three fields or an unparsable timestamp aborts. -/
def parse_message_from_csv_row (fields : List Str) : Option Message :=
  match fields with
  | u :: m :: t :: _ => (dateutil_parse t).map fun dt => ⟨u, m, dt⟩
  | _ => none

def rowOfLine (line : Str) : Option Message :=
  match line with
  | [] => none
  | _ => (parseFields line).bind parse_message_from_csv_row

def readRows : List Str → Option (List Message)
  | [] => some []
  | line :: rest =>
      match rowOfLine line with
      | none => none
      | some m => (readRows rest).map (m :: ·)

/-- Read the whole cache artifact back into messages. -/
def readCacheContent (content : Str) : Option (List Message) :=
  readRows (linesOfContent content)

/-! ## Cache manager and main pipeline -/

/-- The cache directory's files: artifact path to byte content. -/
abbrev FS := List (Str × Str)

def lookupFS : FS → Str → Option Str
  | [], _ => none
  | (p, v) :: rest, q => if p = q then some v else lookupFS rest q

def setFS (fs : FS) (p v : Str) : FS := (p, v) :: fs

/-- `path.join(cache_dir, "{}_{}.csv".format(_id, hash_sum))`. -/
def cache_file (id hash : Str) : Str :=
  "cache/".data ++ id ++ '_' :: hash ++ ".csv".data

/-- The cache build loop: extract fragments in order, writing one CSV row
per message; the first malformed fragment stops the loop with its error,
the rows already written staying written. -/
def buildRowsGo : List Str → List Str × Option ExtractionError
  | [] => ([], none)
  | f :: fs =>
      match parse_message_from_html f with
      | .error e => ([], some e)
      | .ok m =>
          let p := buildRowsGo fs
          (csvRow m :: p.1, p.2)

def buildRows (content : Str) : List Str × Option ExtractionError :=
  buildRowsGo (scanFragments content)

/-- Per-user aggregate: `User = namedtuple('User', ['weekdays', 'months', 'hours'])`. -/
structure UserAgg where
  weekdays : List Nat
  months : List Nat
  hours : List Nat
deriving DecidableEq

def lookupUser : List (Str × UserAgg) → Str → Option UserAgg
  | [], _ => none
  | (n, u) :: rest, name => if n = name then some u else lookupUser rest name

/-- `users.setdefault(message.user, User([], [], []))` followed by the three
appends. -/
def aggInsert (users : List (Str × UserAgg)) (name : Str) (dt : Datetime) :
    List (Str × UserAgg) :=
  match users with
  | [] => [(name, ⟨[dt.weekday], [dt.month], [dt.hour]⟩)]
  | (n, u) :: rest =>
      if n = name then
        (n, ⟨u.weekdays ++ [dt.weekday], u.months ++ [dt.month], u.hours ++ [dt.hour]⟩) :: rest
      else (n, u) :: aggInsert rest name dt

/-- The aggregation loop over the messages read from the cache. -/
def aggregate (msgs : List Message) : List (Str × UserAgg) :=
  msgs.foldl (fun us m => aggInsert us m.user m.created) []

/-- Observable outcome of one program run. -/
structure RunOut where
  fs : FS
  cachePath : Str
  builtCache : Bool
  buildError : Option ExtractionError
  result : Option (List (Str × UserAgg))

/-- One invocation of `__main__` on a file with basename `id` and byte
content `content` over cache state `fs0`: hash the content, derive the
artifact path, reuse the artifact when present, otherwise create the file
and fill it row by row (an extraction error aborts with the partial file in
place), then aggregate the rows read back from the artifact. -/
def runMain (fs0 : FS) (id content : Str) : RunOut :=
  let cpath := cache_file id (md5hexStr content)
  match lookupFS fs0 cpath with
  | some existing =>
      ⟨fs0, cpath, false, none, (readCacheContent existing).map aggregate⟩
  | none =>
      let p := buildRows content
      let fs1 := setFS fs0 cpath p.1.flatten
      match p.2 with
      | some e => ⟨fs1, cpath, true, some e, none⟩
      | none => ⟨fs1, cpath, true, none, (readCacheContent p.1.flatten).map aggregate⟩

/-! ## Concrete inputs -/

/-- A single-message export whose timestamp is in the format the exported
files actually use (seven tokens, full month name). -/
def aliceLine : Str :=
  ("<div class=\"message\"><div class=\"message_header\"><span class=\"user\">Alice</span>"
    ++ "<span class=\"meta\">Mon 3 January 2022 at 09:15 UTC</span></div></div><p>hello</p>").data

def aliceContent : Str := aliceLine ++ ['\n']

/-- The same export with the spec's example timestamp text
`Mon 3 Jan 2022 09:15 UTC` (six tokens, abbreviated month name). -/
def aliceSpecLine : Str :=
  ("<div class=\"message\"><div class=\"message_header\"><span class=\"user\">Alice</span>"
    ++ "<span class=\"meta\">Mon 3 Jan 2022 09:15 UTC</span></div></div><p>hello</p>").data

def aliceSpecContent : Str := aliceSpecLine ++ ['\n']

/-- A message block with no `meta` element. -/
def bobBadLine : Str :=
  ("<div class=\"message\"><div class=\"message_header\"><span class=\"user\">Bob</span>"
    ++ "</div></div><p>hi</p>").data

/-- A well-formed message followed by a malformed one. -/
def mixedContent : Str := aliceLine ++ '\n' :: bobBadLine ++ ['\n']

def aliceRow : Str := "Alice,hello,2022-01-03T09:15:00+00:00\r\n".data

/-! ## C1 -/

/-- C1, counterexample: on the spec's own example input — one message block
with user `Alice`, body `hello` and timestamp text `Mon 3 Jan 2022 09:15
UTC` — the run does not produce the claimed cache row and aggregate.
`parse_datetime` rejects that text (token 5 is `UTC`, not `h:m`, and `Jan`
is not a full month name), so the run aborts with a timestamp error and the
cache file at the artifact path is left empty. -/
theorem spec_example_timestamp_rejected :
    (runMain [] "chat".data aliceSpecContent).buildError = some .badTimestamp ∧
    lookupFS (runMain [] "chat".data aliceSpecContent).fs
      (runMain [] "chat".data aliceSpecContent).cachePath = some [] ∧
    (runMain [] "chat".data aliceSpecContent).result = none := by
  decide

/-- C1, amended: with the timestamp text in the format the code parses —
`Mon 3 January 2022 at 09:15 UTC` — the pipeline produces exactly one cache
row `Alice,hello,2022-01-03T09:15:00+00:00` and exactly one aggregate, for
`Alice`, with weekdays `[0]`, months `[1]`, hours `[9]`. -/
theorem pipeline_single_message_example :
    (runMain [] "chat".data aliceContent).buildError = none ∧
    lookupFS (runMain [] "chat".data aliceContent).fs
      (runMain [] "chat".data aliceContent).cachePath = some aliceRow ∧
    (runMain [] "chat".data aliceContent).result =
      some [("Alice".data, ⟨[0], [1], [9]⟩)] := by
  decide

/-! ## C2 -/

/-- C2, counterexample: with a well-formed message followed by a fragment
missing its `meta` element, the run does fail with an extraction error, but
a cache artifact **does** exist afterwards at the cache path (holding the
row written before the failure) — the file is created before extraction and
filled incrementally, so the claim's "no cache artifact exists afterwards at
the cache path" is false. -/
theorem malformed_fragment_leaves_partial_cache :
    (runMain [] "chat".data mixedContent).buildError =
      some ExtractionError.missingMeta ∧
    lookupFS (runMain [] "chat".data mixedContent).fs
      (runMain [] "chat".data mixedContent).cachePath = some aliceRow := by
  decide

/-- C2, amended: when extraction fails, the run stops with that
`ExtractionError`, but the cache file — created at the artifact path before
extraction began and written row by row — remains afterwards, containing
exactly the rows written before the failure; a later run on the same content
finds it at the derived path and treats it as a complete, valid cache (it
does not re-extract). -/
theorem failed_run_leaves_partial_artifact (fs0 : FS) (id content : Str)
    (rows : List Str) (e : ExtractionError)
    (h : lookupFS fs0 (cache_file id (md5hexStr content)) = none)
    (hb : buildRows content = (rows, some e)) :
    (runMain fs0 id content).buildError = some e ∧
    lookupFS (runMain fs0 id content).fs (runMain fs0 id content).cachePath =
      some rows.flatten ∧
    (runMain (runMain fs0 id content).fs id content).builtCache = false := by
  simp only [runMain, h, hb, setFS, lookupFS, if_pos rfl]
  simp

theorem failed_run_leaves_partial_artifact_witness :
    (lookupFS ([] : FS) (cache_file "chat".data (md5hexStr mixedContent)) = none ∧
      buildRows mixedContent = ([aliceRow], some ExtractionError.missingMeta)) ∧
    ((runMain [] "chat".data mixedContent).buildError =
        some ExtractionError.missingMeta ∧
      lookupFS (runMain [] "chat".data mixedContent).fs
        (runMain [] "chat".data mixedContent).cachePath =
          some [aliceRow].flatten ∧
      (runMain (runMain [] "chat".data mixedContent).fs "chat".data
          mixedContent).builtCache = false) :=
  ⟨⟨rfl, by decide⟩,
    failed_run_leaves_partial_artifact [] "chat".data mixedContent [aliceRow]
      ExtractionError.missingMeta rfl (by decide)⟩

/-! ## C3 -/

/-- C3: starting from a cache state with nothing at the derived artifact
path, the first run builds the cache (the extractor runs, once, over the
file) and the second run on unchanged content computes the same cache key,
finds the artifact present, and returns the same artifact path without
re-extracting. -/
theorem ensure_cache_idempotent (fs0 : FS) (id content : Str)
    (h : lookupFS fs0 (cache_file id (md5hexStr content)) = none) :
    (runMain fs0 id content).builtCache = true ∧
    (runMain (runMain fs0 id content).fs id content).builtCache = false ∧
    (runMain (runMain fs0 id content).fs id content).cachePath =
      (runMain fs0 id content).cachePath := by
  simp only [runMain, h]
  rcases hb : (buildRows content).2 with _ | e <;>
    simp [hb, setFS, lookupFS]

theorem ensure_cache_idempotent_witness :
    lookupFS ([] : FS) (cache_file "chat".data (md5hexStr aliceContent)) = none ∧
    ((runMain [] "chat".data aliceContent).builtCache = true ∧
      (runMain (runMain [] "chat".data aliceContent).fs "chat".data
          aliceContent).builtCache = false ∧
      (runMain (runMain [] "chat".data aliceContent).fs "chat".data
          aliceContent).cachePath = (runMain [] "chat".data aliceContent).cachePath) :=
  ⟨rfl, ensure_cache_idempotent [] "chat".data aliceContent rfl⟩

/-! ## C5 -/

/-- A timestamp satisfying every condition the claim lists — exactly seven
space-separated tokens, day 30 within 1–31, hour 9 within 0–23, minute 15
within 0–59, month name `February` in the lookup table, timezone label `UTC`
in the table — on which the parser nevertheless fails, because February 2022
has only 28 days and the `datetime` constructor rejects day 30. -/
def feb30Ts : Str := "Mon 30 February 2022 at 09:15 UTC".data

/-- C5, counterexample: `feb30Ts` meets all the claim's conditions (token
count, claimed numeric ranges, month and timezone lookups) yet
`parse_datetime` fails, so "for inputs satisfying all of these it succeeds"
is false: the day bound is the length of the month, not 31. -/
theorem parse_datetime_claim_counterexample :
    (splitOnCh ' ' feb30Ts).length = 7 ∧
    pyInt ((splitOnCh ' ' feb30Ts).getD 1 []) = some 30 ∧
    (idxOf month_name (pyCapitalize ((splitOnCh ' ' feb30Ts).getD 2 []))).isSome = true ∧
    timeOf ((splitOnCh ' ' feb30Ts).getD 5 []) = some (9, 15) ∧
    (tz ((splitOnCh ' ' feb30Ts).getD 6 [])).isSome = true ∧
    parse_datetime feb30Ts = none := by
  decide

theorem getD_of_get? {α : Type} {l : List α} {i : Nat} {x : α} (d : α)
    (h : l.get? i = some x) : l.getD i d = x := by
  simp [List.getD_eq_getElem?_getD, ← List.get?_eq_getElem?, h]

theorem get?_of_lt {α : Type} {l : List α} {i : Nat} (h : i < l.length) (d : α) :
    l.get? i = some (l.getD i d) := by
  have h2 : l.get? i = some (l.get ⟨i, h⟩) := List.get?_eq_get h
  rw [h2, getD_of_get? d h2]

/-- C5, amended: `parse_datetime` succeeds **iff** the input splits on single
spaces into at least seven tokens (surplus tokens beyond the seventh are
ignored, token 0 and token 4 are never read), token 1 and token 3 parse as
integers, token 5 is exactly two colon-separated integers, token 2
capitalises to an entry of the month table, token 6 is a configured timezone
label, and the numbers satisfy the `datetime` constructor's ranges: year
1–9999, month 1–12, day 1 to the length of that month in that year (not
1–31), hour 0–23, minute 0–59. -/
theorem parse_datetime_success_characterization (s : Str) :
    (parse_datetime s).isSome = true ↔
      ∃ (d : Int) (mo : Nat) (y h mi off : Int),
        7 ≤ (splitOnCh ' ' s).length ∧
        pyInt ((splitOnCh ' ' s).getD 1 []) = some d ∧
        idxOf month_name (pyCapitalize ((splitOnCh ' ' s).getD 2 [])) = some mo ∧
        pyInt ((splitOnCh ' ' s).getD 3 []) = some y ∧
        timeOf ((splitOnCh ' ' s).getD 5 []) = some (h, mi) ∧
        tz ((splitOnCh ' ' s).getD 6 []) = some off ∧
        1 ≤ y ∧ y ≤ 9999 ∧ 1 ≤ mo ∧ mo ≤ 12 ∧ 1 ≤ d ∧
        d ≤ (daysInMonth y.toNat mo : Int) ∧ 0 ≤ h ∧ h ≤ 23 ∧ 0 ≤ mi ∧ mi ≤ 59 := by
  constructor
  · intro hs
    rw [Option.isSome_iff_exists] at hs
    obtain ⟨dt, hdt⟩ := hs
    unfold parse_datetime parse_datetime_loc at hdt
    simp only [bind, Option.bind_eq_some] at hdt
    obtain ⟨tTok, h5, hm, hhm, y, ⟨yTok, h3, hy⟩, moTok, h2, moIdx, hidx, d,
      ⟨dTok, h1, hd⟩, tzTok, h6, off, hoff, hmk⟩ := hdt
    have hlen : 6 < (splitOnCh ' ' s).length := (List.get?_eq_some.mp h6).1
    unfold mkDatetime at hmk
    split at hmk
    case isFalse => exact absurd hmk (by simp)
    case isTrue hb =>
      obtain ⟨b1, b2, b3, b4, b5, b6, b7, b8, b9, b10⟩ := hb
      refine ⟨d, moIdx, y, hm.1, hm.2, off, by omega, ?_, ?_, ?_, ?_, ?_, ?_⟩
      · rw [getD_of_get? [] h1]; exact hd
      · rw [getD_of_get? [] h2]; exact hidx
      · rw [getD_of_get? [] h3]; exact hy
      · rw [getD_of_get? [] h5]; exact hhm
      · rw [getD_of_get? [] h6]; exact hoff
      · have hmo1 : 1 ≤ moIdx := by exact_mod_cast b3
        have hmo2 : moIdx ≤ 12 := by exact_mod_cast b4
        have : (moIdx : Int).toNat = moIdx := Int.toNat_natCast moIdx
        rw [this] at b6
        exact ⟨b1, b2, hmo1, hmo2, b5, b6, b7, b8, b9, b10⟩
  · rintro ⟨d, mo, y, h, mi, off, hlen, hd, hmo, hy, htime, htz,
      c1, c2, c3, c4, c5, c6, c7, c8, c9, c10⟩
    have h1 := get?_of_lt (l := splitOnCh ' ' s) (by omega : 1 < _) ([] : Str)
    have h2 := get?_of_lt (l := splitOnCh ' ' s) (by omega : 2 < _) ([] : Str)
    have h3 := get?_of_lt (l := splitOnCh ' ' s) (by omega : 3 < _) ([] : Str)
    have h5 := get?_of_lt (l := splitOnCh ' ' s) (by omega : 5 < _) ([] : Str)
    have h6 := get?_of_lt (l := splitOnCh ' ' s) (by omega : 6 < _) ([] : Str)
    rw [Option.isSome_iff_exists]
    refine ⟨⟨y.toNat, mo, d.toNat, h.toNat, mi.toNat, 0, off⟩, ?_⟩
    unfold parse_datetime parse_datetime_loc
    simp only [bind, Option.bind_eq_some]
    refine ⟨_, h5, (h, mi), htime, y, ⟨_, h3, hy⟩, _, h2, mo, hmo, d,
      ⟨_, h1, hd⟩, _, h6, off, htz, ?_⟩
    · unfold mkDatetime
      rw [if_pos]
      · simp [Int.toNat_natCast]
      · exact ⟨c1, c2, by exact_mod_cast c3, by exact_mod_cast c4, c5,
          by rw [Int.toNat_natCast]; exact c6, c7, c8, c9, c10⟩

/-! ## C8 -/

/-- The ambient process state the Date Parser could see: the month-name
table the current locale provides (the only ambient input `parse_datetime`
reads) together with state it does not read. -/
structure LocaleState where
  monthTable : List Str
  clock : Nat
  localeName : Str

/-- `parse_datetime` as run inside a process: the month table comes from the
process-wide locale, which the program sets once (from its `--src-locale`
argument) before any parsing. -/
def parse_datetime_in (st : LocaleState) (s : Str) : Option Datetime :=
  parse_datetime_loc st.monthTable s

/-- C8: the Date Parser is deterministic — two invocations on the same
string, under ambient states agreeing on the installed month-name table
(the program fixes it before extraction) but differing arbitrarily
otherwise, yield the same absolute timestamp including its offset. -/
theorem parse_datetime_deterministic (st1 st2 : LocaleState) (s : Str)
    (dt1 dt2 : Datetime) (hloc : st1.monthTable = st2.monthTable)
    (h1 : parse_datetime_in st1 s = some dt1)
    (h2 : parse_datetime_in st2 s = some dt2) : dt1 = dt2 := by
  unfold parse_datetime_in at h1 h2
  rw [hloc] at h1
  rw [h1] at h2
  exact Option.some.inj h2

def goodTs : Str := "Mon 3 January 2022 at 09:15 UTC".data

theorem parse_datetime_deterministic_witness :
    ((⟨month_name, 0, "en_US".data⟩ : LocaleState).monthTable =
        (⟨month_name, 99, "sv_SE".data⟩ : LocaleState).monthTable ∧
      parse_datetime_in ⟨month_name, 0, "en_US".data⟩ goodTs =
        some ⟨2022, 1, 3, 9, 15, 0, 0⟩ ∧
      parse_datetime_in ⟨month_name, 99, "sv_SE".data⟩ goodTs =
        some ⟨2022, 1, 3, 9, 15, 0, 0⟩) ∧
    (⟨2022, 1, 3, 9, 15, 0, 0⟩ : Datetime) = ⟨2022, 1, 3, 9, 15, 0, 0⟩ :=
  ⟨⟨rfl, by decide, by decide⟩,
    parse_datetime_deterministic ⟨month_name, 0, "en_US".data⟩
      ⟨month_name, 99, "sv_SE".data⟩ goodTs _ _ rfl (by decide) (by decide)⟩

/-! ## C9 -/

theorem pyLinesF_eq_nil {fuel : Nat} {cs : Str} (hf : cs.length ≤ fuel)
    (h : pyLinesF fuel cs = []) : cs = [] := by
  match fuel, cs with
  | _, [] => rfl
  | 0, c :: rest => simp at hf
  | fuel + 1, c :: rest => simp [pyLinesF] at h

theorem joinSep_pyLinesF_length (fuel : Nat) :
    ∀ cs : Str, cs.length ≤ fuel →
      cs.length ≤ (joinSep '\n' (pyLinesF fuel cs)).length := by
  induction fuel with
  | zero =>
    intro cs hf
    interval_cases h : cs.length
    · simp
  | succ fuel ih =>
    intro cs hf
    match cs with
    | [] => simp
    | c :: rest =>
      have hap := breakAfterNl_append (c :: rest)
      have hpos : (breakAfterNl (c :: rest)).1 ≠ [] := breakAfterNl_fst_pos c rest
      have hlen := congrArg List.length hap
      simp only [List.length_append, List.length_cons] at hlen
      have hpos' : 0 < (breakAfterNl (c :: rest)).1.length := List.length_pos.mpr hpos
      simp only [List.length_cons] at hf
      have hrest : (breakAfterNl (c :: rest)).2.length ≤ fuel := by omega
      simp only [pyLinesF]
      cases hL : pyLinesF fuel (breakAfterNl (c :: rest)).2 with
      | nil =>
        have h0 : (breakAfterNl (c :: rest)).2 = [] := pyLinesF_eq_nil hrest hL
        rw [h0] at hlen
        simp only [List.length_nil, List.length_cons] at hlen ⊢
        simp only [joinSep]
        omega
      | cons l2 ls =>
        have ihr := ih (breakAfterNl (c :: rest)).2 hrest
        rw [hL] at ihr
        simp only [joinSep, List.length_append, List.length_cons]
        omega

/-- C9: the string the extractor scans is `'\n'.join` over all input lines,
materialized in full before any match is taken: its length is at least the
length of the whole file, so peak memory is proportional to the file, not to
one fragment (contradicting the source's own comment at lines 109–113). -/
theorem scan_input_materializes_whole_file (content : Str) :
    content.length ≤ (joinedScanInput content).length :=
  joinSep_pyLinesF_length content.length content le_rfl

/-! ## C7 -/

/-- Number of messages in `msgs` sent by `name`. -/
def msgCount (name : Str) (msgs : List Message) : Nat :=
  (msgs.filter fun m => m.user == name).length

/-- The field ranges `dateutil` guarantees for any timestamp it accepts. -/
theorem dateutil_parse_ranges {t : Str} {dt : Datetime}
    (h : dateutil_parse t = some dt) :
    1 ≤ dt.month ∧ dt.month ≤ 12 ∧ dt.hour ≤ 23 := by
  unfold dateutil_parse at h
  split at h
  · simp only [bind, Option.bind_eq_some] at h
    obtain ⟨y, -, mo, -, dd, -, hh, -, mi, -, ss, -, oh, -, om, -, hrest⟩ := h
    split at hrest
    · simp only [Option.some_bind] at hrest
      split at hrest
      · rename_i hc
        simp only [Option.some.injEq] at hrest
        subst hrest
        exact ⟨hc.2.1, hc.2.2.1, hc.2.2.2.2.2.1⟩
      · simp at hrest
    · split at hrest
      · simp only [Option.some_bind] at hrest
        split at hrest
        · rename_i hc
          simp only [Option.some.injEq] at hrest
          subst hrest
          exact ⟨hc.2.1, hc.2.2.1, hc.2.2.2.2.2.1⟩
        · simp at hrest
      · simp at hrest
  · simp at h

theorem rowOfLine_ranges {line : Str} {m : Message}
    (h : rowOfLine line = some m) :
    1 ≤ m.created.month ∧ m.created.month ≤ 12 ∧ m.created.hour ≤ 23 := by
  unfold rowOfLine at h
  split at h
  · simp at h
  · simp only [Option.bind_eq_some] at h
    obtain ⟨fields, -, hrow⟩ := h
    unfold parse_message_from_csv_row at hrow
    split at hrow
    · simp only [Option.map_eq_some'] at hrow
      obtain ⟨dt, hdt, hm⟩ := hrow
      subst hm
      exact dateutil_parse_ranges hdt
    · simp at hrow

theorem readRows_ranges {lines : List Str} {msgs : List Message}
    (h : readRows lines = some msgs) :
    ∀ m ∈ msgs, 1 ≤ m.created.month ∧ m.created.month ≤ 12 ∧ m.created.hour ≤ 23 := by
  induction lines generalizing msgs with
  | nil =>
    simp only [readRows, Option.some.injEq] at h
    subst h; simp
  | cons line rest ih =>
    unfold readRows at h
    split at h
    · simp at h
    · rename_i m0 hrow
      simp only [Option.map_eq_some'] at h
      obtain ⟨ms, hms, hcons⟩ := h
      subst hcons
      intro m hm
      rcases List.mem_cons.mp hm with h1 | h1
      · subst h1; exact rowOfLine_ranges hrow
      · exact ih hms m h1

/-- The aggregation-loop invariant: after the rows `P` have been processed,
every present user's three sequences have length equal to that user's row
count and all recorded values are in range; absent users have row count 0. -/
def AggOk (P : List Message) (users : List (Str × UserAgg)) : Prop :=
  (∀ name u, lookupUser users name = some u →
    (u.weekdays.length = msgCount name P ∧ u.months.length = msgCount name P ∧
      u.hours.length = msgCount name P) ∧
    (∀ w ∈ u.weekdays, w ≤ 6) ∧ (∀ mo ∈ u.months, 1 ≤ mo ∧ mo ≤ 12) ∧
    (∀ hh ∈ u.hours, hh ≤ 23)) ∧
  (∀ name, lookupUser users name = none → msgCount name P = 0)

theorem lookupUser_aggInsert_self (users : List (Str × UserAgg)) (name : Str)
    (dt : Datetime) :
    lookupUser (aggInsert users name dt) name =
      some (match lookupUser users name with
        | none => ⟨[dt.weekday], [dt.month], [dt.hour]⟩
        | some u => ⟨u.weekdays ++ [dt.weekday], u.months ++ [dt.month],
            u.hours ++ [dt.hour]⟩) := by
  induction users with
  | nil => simp [aggInsert, lookupUser]
  | cons p rest ih =>
    obtain ⟨n, u⟩ := p
    by_cases hn : n = name
    · subst hn
      simp [aggInsert, lookupUser]
    · simp [aggInsert, lookupUser, hn, ih]

theorem lookupUser_aggInsert_ne (users : List (Str × UserAgg)) (name name' : Str)
    (dt : Datetime) (h : name' ≠ name) :
    lookupUser (aggInsert users name dt) name' = lookupUser users name' := by
  induction users with
  | nil => simp [aggInsert, lookupUser, Ne.symm h]
  | cons p rest ih =>
    obtain ⟨n, u⟩ := p
    by_cases hn : n = name
    · subst hn
      simp [aggInsert, lookupUser, Ne.symm h]
    · simp only [aggInsert, if_neg hn]
      by_cases hn' : n = name'
      · simp [lookupUser, hn']
      · simp [lookupUser, hn', ih]

theorem msgCount_append_one (name : Str) (P : List Message) (m : Message) :
    msgCount name (P ++ [m]) =
      msgCount name P + if m.user = name then 1 else 0 := by
  simp only [msgCount, List.filter_append, List.length_append]
  congr 1
  by_cases hm : m.user = name
  · have hb : (m.user == name) = true := beq_iff_eq.mpr hm
    simp [List.filter, hb, hm]
  · have hb : (m.user == name) = false := beq_eq_false_iff_ne.mpr hm
    simp [List.filter, hb, hm]

theorem aggOk_step {P : List Message} {users : List (Str × UserAgg)}
    (name0 txt : Str) (dt : Datetime) (hOk : AggOk P users)
    (hdt : 1 ≤ dt.month ∧ dt.month ≤ 12 ∧ dt.hour ≤ 23) :
    AggOk (P ++ [⟨name0, txt, dt⟩]) (aggInsert users name0 dt) := by
  obtain ⟨hSome, hNone⟩ := hOk
  constructor
  · intro name u hu
    by_cases hn : name = name0
    · subst hn
      rw [lookupUser_aggInsert_self] at hu
      rw [msgCount_append_one]
      simp only [if_pos rfl]
      cases hcase : lookupUser users name with
      | none =>
        rw [hcase] at hu
        simp only [Option.some.injEq] at hu
        subst hu
        have h0 := hNone name hcase
        refine ⟨⟨?_, ?_, ?_⟩, ?_, ?_, ?_⟩ <;>
          simp [h0, weekdayAt_le, Datetime.weekday, hdt.1, hdt.2.1, hdt.2.2]
      | some u0 =>
        rw [hcase] at hu
        simp only [Option.some.injEq] at hu
        subst hu
        obtain ⟨⟨l1, l2, l3⟩, r1, r2, r3⟩ := hSome name u0 hcase
        refine ⟨⟨by simp [l1], by simp [l2], by simp [l3]⟩, ?_, ?_, ?_⟩
        · intro w hw
          rcases List.mem_append.mp hw with h1 | h1
          · exact r1 w h1
          · simp at h1; subst h1; exact weekdayAt_le _ _ _
        · intro mo hmo
          rcases List.mem_append.mp hmo with h1 | h1
          · exact r2 mo h1
          · simp at h1; subst h1; exact ⟨hdt.1, hdt.2.1⟩
        · intro hh hhh
          rcases List.mem_append.mp hhh with h1 | h1
          · exact r3 hh h1
          · simp at h1; subst h1; exact hdt.2.2
    · rw [lookupUser_aggInsert_ne users name0 name dt hn] at hu
      rw [msgCount_append_one]
      simp only [if_neg (Ne.symm hn), Nat.add_zero]
      exact hSome name u hu
  · intro name hnone
    by_cases hn : name = name0
    · subst hn
      rw [lookupUser_aggInsert_self] at hnone
      simp at hnone
    · rw [lookupUser_aggInsert_ne users name0 name dt hn] at hnone
      rw [msgCount_append_one]
      simp only [if_neg (Ne.symm hn), Nat.add_zero]
      exact hNone name hnone

theorem aggOk_nil : AggOk [] [] := by
  constructor
  · intro name u hu
    simp [lookupUser] at hu
  · intro name _
    simp [msgCount]

theorem aggOk_foldl (msgs : List Message) :
    ∀ (P : List Message) (users : List (Str × UserAgg)), AggOk P users →
      (∀ m ∈ msgs, 1 ≤ m.created.month ∧ m.created.month ≤ 12 ∧ m.created.hour ≤ 23) →
      AggOk (P ++ msgs)
        (msgs.foldl (fun us m => aggInsert us m.user m.created) users) := by
  induction msgs with
  | nil =>
    intro P users hOk _
    simpa using hOk
  | cons m ms ih =>
    intro P users hOk hMH
    have hstep : AggOk (P ++ [m]) (aggInsert users m.user m.created) := by
      have := aggOk_step m.user m.message m.created hOk
        (hMH m (List.mem_cons_self m ms))
      simpa using this
    have := ih (P ++ [m]) (aggInsert users m.user m.created) hstep
      (fun x hx => hMH x (List.mem_cons_of_mem m hx))
    simpa [List.foldl_cons, List.append_assoc] using this

/-- C7: for any cache content the reader accepts, and after any number `k`
of rows have been processed, every user present in the aggregate has
weekday/month/hour sequences whose common length is that user's row count
among the processed rows, with every weekday in 0–6, month in 1–12 and hour
in 0–23. -/
theorem aggregate_invariant (content : Str) (msgs : List Message)
    (hread : readCacheContent content = some msgs) (k : Nat) (name : Str)
    (u : UserAgg)
    (hu : lookupUser (aggregate (msgs.take k)) name = some u) :
    (u.weekdays.length = msgCount name (msgs.take k) ∧
      u.months.length = msgCount name (msgs.take k) ∧
      u.hours.length = msgCount name (msgs.take k)) ∧
    (∀ w ∈ u.weekdays, w ≤ 6) ∧
    (∀ mo ∈ u.months, 1 ≤ mo ∧ mo ≤ 12) ∧
    (∀ hh ∈ u.hours, hh ≤ 23) := by
  have hMH := readRows_ranges (show readRows (linesOfContent content) = some msgs from hread)
  have hfold := aggOk_foldl (msgs.take k) [] [] aggOk_nil
    (fun m hm => hMH m ((List.take_sublist k msgs).subset hm))
  simp only [List.nil_append] at hfold
  exact hfold.1 name u hu

theorem aggregate_invariant_witness :
    (readCacheContent aliceRow =
        some [⟨"Alice".data, "hello".data, ⟨2022, 1, 3, 9, 15, 0, 0⟩⟩] ∧
      lookupUser
        (aggregate (([⟨"Alice".data, "hello".data,
            (⟨2022, 1, 3, 9, 15, 0, 0⟩ : Datetime)⟩] : List Message).take 1))
        "Alice".data = some ⟨[0], [1], [9]⟩) ∧
    ((([0] : List Nat).length =
        msgCount "Alice".data
          (([⟨"Alice".data, "hello".data, ⟨2022, 1, 3, 9, 15, 0, 0⟩⟩] :
            List Message).take 1) ∧
      ([1] : List Nat).length =
        msgCount "Alice".data
          (([⟨"Alice".data, "hello".data, ⟨2022, 1, 3, 9, 15, 0, 0⟩⟩] :
            List Message).take 1) ∧
      ([9] : List Nat).length =
        msgCount "Alice".data
          (([⟨"Alice".data, "hello".data, ⟨2022, 1, 3, 9, 15, 0, 0⟩⟩] :
            List Message).take 1)) ∧
    (∀ w ∈ ([0] : List Nat), w ≤ 6) ∧
    (∀ mo ∈ ([1] : List Nat), 1 ≤ mo ∧ mo ≤ 12) ∧
    (∀ hh ∈ ([9] : List Nat), hh ≤ 23)) :=
  ⟨⟨by decide, by decide⟩,
    aggregate_invariant aliceRow
      [⟨"Alice".data, "hello".data, ⟨2022, 1, 3, 9, 15, 0, 0⟩⟩] (by decide) 1
      "Alice".data ⟨[0], [1], [9]⟩ (by decide)⟩

/-! ## C10 -/

/-- `list(calendar.day_abbr)` under the program's `en_US` display locale:
Monday-first day abbreviations, used for the weekday chart's axis labels. -/
def day_abbr : List Str :=
  ["Mon".data, "Tue".data, "Wed".data, "Thu".data, "Fri".data, "Sat".data, "Sun".data]

/-- Seven messages by one user dated 2022-01-03 through 2022-01-09 — in the
real calendar a Monday through a Sunday. -/
def weekMsgs : List Message :=
  (List.range 7).map fun i => ⟨"A".data, "x".data, ⟨2022, 1, 3 + i, 9, 15, 0, 0⟩⟩

/-- C10: the weekday values the aggregator records follow Python's
`datetime.weekday()` Monday-start convention: the messages dated Monday
2022-01-03 through Sunday 2022-01-09 are recorded as 0…6, so indexing the
Mon-first `day_abbr` axis labels with the recorded value names each
message's actual day. -/
theorem weekday_monday_convention :
    (lookupUser (aggregate weekMsgs) "A".data).map (fun u => u.weekdays) =
      some [0, 1, 2, 3, 4, 5, 6] ∧
    (lookupUser (aggregate weekMsgs) "A".data).map
        (fun u => u.weekdays.map fun w => day_abbr.getD w []) =
      some ["Mon".data, "Tue".data, "Wed".data, "Thu".data, "Fri".data,
            "Sat".data, "Sun".data] := by
  decide

/-! ## C4: extraction produces newline-free, constructor-valid messages -/

theorem scanSegmentF_mem {fuel : Nat} {seg frag : Str}
    (h : frag ∈ scanSegmentF fuel seg) : ∀ a ∈ frag, a ∈ seg ∨ a ∈ startTag := by
  induction fuel generalizing seg with
  | zero => simp [scanSegmentF] at h
  | succ fuel ih =>
    unfold scanSegmentF at h
    cases h1 : dropThroughPat startTag seg with
    | none => simp [h1] at h
    | some rest1 =>
      simp only [h1] at h
      cases h2 : takeThroughPat endTag rest1 with
      | none => simp [h2] at h
      | some p =>
        obtain ⟨m, r⟩ := p
        simp only [h2] at h
        rcases List.mem_cons.mp h with hfr | hfr
        · subst hfr
          intro a ha
          rcases List.mem_append.mp ha with h3 | h3
          · exact Or.inr h3
          · exact Or.inl (dropThroughPat_mem h1 a ((takeThroughPat_mem h2).1 a h3))
        · intro a ha
          rcases ih hfr a ha with h3 | h3
          · exact Or.inl (dropThroughPat_mem h1 a ((takeThroughPat_mem h2).2 a h3))
          · exact Or.inr h3

theorem scanFragments_no_nl {content frag : Str}
    (h : frag ∈ scanFragments content) : ∀ a ∈ frag, a ≠ '\n' := by
  unfold scanFragments at h
  rw [List.mem_flatten] at h
  obtain ⟨l, hl, hfl⟩ := h
  rw [List.mem_map] at hl
  obtain ⟨seg, hseg, rfl⟩ := hl
  intro a ha
  unfold scanSegment at hfl
  rcases scanSegmentF_mem hfl a ha with h1 | h1
  · exact mem_splitOnCh_ne_sep hseg a h1
  · intro heq
    subst heq
    exact absurd h1 (by decide)

theorem textAfter_subset {r : Str} : ∀ a ∈ textAfter r, a ∈ r := by
  intro a ha
  unfold textAfter at ha
  have h1 := (List.takeWhile_sublist _).subset ha
  have h2 := (List.drop_sublist 1 _).subset h1
  exact (List.dropWhile_sublist _).subset h2

theorem findClassText_subset {frag c u : Str} (h : findClassText frag c = some u) :
    ∀ a ∈ u, a ∈ frag := by
  unfold findClassText at h
  cases h1 : dropThroughPat (classPat c) frag with
  | none => rw [h1] at h; simp at h
  | some rr =>
    rw [h1] at h
    simp only [Option.map_some', Option.some.injEq] at h
    subst h
    intro a ha
    exact dropThroughPat_mem h1 a (textAfter_subset a ha)

theorem findPText_subset {frag u : Str} (h : findPText frag = some u) :
    ∀ a ∈ u, a ∈ frag := by
  unfold findPText at h
  cases h1 : dropThroughPat "<p>".data frag with
  | none => rw [h1] at h; simp at h
  | some rr =>
    rw [h1] at h
    simp only [Option.map_some', Option.some.injEq] at h
    subst h
    intro a ha
    exact dropThroughPat_mem h1 a ((List.takeWhile_sublist _).subset ha)

theorem tz_cases {t : Str} {off : Int} (h : tz t = some off) : off = 0 ∨ off = 72 := by
  unfold tz at h
  split at h
  · exact Or.inr (Option.some.inj h).symm
  · split at h
    · exact Or.inl (Option.some.inj h).symm
    · simp at h

theorem parse_datetime_valid {s : Str} {dt : Datetime}
    (h : parse_datetime s = some dt) :
    ValidDT dt ∧ (dt.offMin = 0 ∨ dt.offMin = 72) := by
  unfold parse_datetime parse_datetime_loc at h
  simp only [bind, Option.bind_eq_some] at h
  obtain ⟨tTok, -, hm, -, y, ⟨yTok, -, -⟩, moTok, -, moIdx, -, d,
    ⟨dTok, -, -⟩, tzTok, -, off, hoff, hmk⟩ := h
  unfold mkDatetime at hmk
  split at hmk
  case isFalse => simp at hmk
  case isTrue hc =>
    obtain ⟨b1, b2, b3, b4, b5, b6, b7, b8, b9, b10⟩ := hc
    have hdteq : dt = ⟨y.toNat, (↑moIdx : Int).toNat, d.toNat, hm.1.toNat,
        hm.2.toNat, 0, off⟩ := (Option.some.inj hmk).symm
    have hmoIdx : (↑moIdx : Int).toNat = moIdx := Int.toNat_natCast moIdx
    have e1 : dt.year = y.toNat := by rw [hdteq]
    have e2 : dt.month = moIdx := by rw [hdteq]; exact hmoIdx
    have e3 : dt.day = d.toNat := by rw [hdteq]
    have e4 : dt.hour = hm.1.toNat := by rw [hdteq]
    have e5 : dt.minute = hm.2.toNat := by rw [hdteq]
    have e6 : dt.second = 0 := by rw [hdteq]
    have e7 : dt.offMin = off := by rw [hdteq]
    simp only [hmoIdx] at b6
    constructor
    · unfold ValidDT
      rw [e1, e2, e3, e4, e5, e6, e7]
      refine ⟨by omega, by omega, by omega, by omega, by omega, by omega,
        by omega, by omega, by norm_num, ?_⟩
      rcases tz_cases hoff with h1 | h1 <;> simp [h1]
    · rw [e7]; exact tz_cases hoff

/-- What the spaces of the parsed message are made of: every character of
the user text and the body text of an extracted message occurs in its
fragment, and its timestamp is constructor-valid with a table offset. -/
theorem parse_message_from_html_ok {frag : Str} {m : Message}
    (h : parse_message_from_html frag = .ok m) :
    (∀ a ∈ m.user, a ∈ frag) ∧ (∀ a ∈ m.message, a ∈ frag) ∧
    ValidDT m.created ∧ (m.created.offMin = 0 ∨ m.created.offMin = 72) := by
  unfold parse_message_from_html at h
  cases hu : findClassText frag "user".data with
  | none => simp [hu] at h
  | some u =>
    simp only [hu] at h
    cases hb : findPText frag with
    | none => simp [hb] at h
    | some body =>
      simp only [hb] at h
      cases hm : findClassText frag "meta".data with
      | none => simp [hm] at h
      | some metaTxt =>
        simp only [hm] at h
        cases hdt : parse_datetime metaTxt with
        | none => simp [hdt] at h
        | some dt =>
          simp only [hdt, Except.ok.injEq] at h
          subst h
          exact ⟨findClassText_subset hu, findPText_subset hb,
            (parse_datetime_valid hdt).1, (parse_datetime_valid hdt).2⟩

theorem daysInMonth_le (y m : Nat) : daysInMonth y m ≤ 31 := by
  unfold daysInMonth
  split
  · split <;> omega
  · split <;> omega

theorem dig2_pad (x : Nat) (hx : x ≤ 99) :
    dig2 (digitCh (x / 10)) (digitCh (x % 10)) = some x := by
  unfold dig2
  rw [digitVal_digitCh (by omega), digitVal_digitCh (by omega)]
  exact congrArg some (by omega)

theorem dig4_pad (x : Nat) (hx : x ≤ 9999) :
    dig4 (digitCh (x / 1000)) (digitCh (x / 100 % 10)) (digitCh (x / 10 % 10))
      (digitCh (x % 10)) = some x := by
  unfold dig4
  rw [digitVal_digitCh (by omega), digitVal_digitCh (by omega),
    digitVal_digitCh (by omega), digitVal_digitCh (by omega)]
  exact congrArg some (by omega)

/-- Reading an isoformat-printed timestamp back through the cache reader's
date parse recovers the datetime exactly. -/
theorem dateutil_parse_isoformat {dt : Datetime} (hv : ValidDT dt) :
    dateutil_parse dt.isoformat = some dt := by
  obtain ⟨v1, v2, v3, v4, v5, v6, v7, v8, v9, v10⟩ := hv
  have hdm : daysInMonth dt.year dt.month ≤ 31 := daysInMonth_le _ _
  have hoh : dt.offMin.natAbs / 60 ≤ 99 := by omega
  have hom : dt.offMin.natAbs % 60 ≤ 99 := by omega
  simp only [Datetime.isoformat, pad4, pad2, offText, List.cons_append,
    List.nil_append]
  simp only [dateutil_parse, bind]
  rw [dig4_pad dt.year (by omega), dig2_pad dt.month (by omega),
    dig2_pad dt.day (by omega), dig2_pad dt.hour (by omega),
    dig2_pad dt.minute (by omega), dig2_pad dt.second (by omega),
    dig2_pad (dt.offMin.natAbs / 60) hoh, dig2_pad (dt.offMin.natAbs % 60) hom]
  simp only [Option.some_bind]
  by_cases hneg : dt.offMin < 0
  · simp only [if_pos hneg]
    rw [if_neg (show ¬('-' = '+') by decide), if_pos trivial]
    have hoff : (-(↑(dt.offMin.natAbs / 60) * 60 + ↑(dt.offMin.natAbs % 60)) : Int) =
        dt.offMin := by omega
    rw [hoff]
    rw [if_pos ⟨v1, v3, v4, v5, v6, v7, v8, v9⟩]
  · simp only [if_neg hneg]
    rw [if_pos trivial]
    have hoff : ((↑(dt.offMin.natAbs / 60) * 60 + ↑(dt.offMin.natAbs % 60)) : Int) =
        dt.offMin := by omega
    rw [hoff]
    rw [if_pos ⟨v1, v3, v4, v5, v6, v7, v8, v9⟩]

theorem crlfStep_ne (c : Char) (s : Str) (ss : List Str)
    (h : ¬(c = '\r' ∧ ∃ l, s = '\n' :: l)) :
    crlfStep c (s :: ss) = (c :: s) :: ss := by
  unfold crlfStep
  rw [if_neg]
  · rfl
  · rintro ⟨hc, hh⟩
    apply h
    refine ⟨hc, ?_⟩
    cases s with
    | nil => simp at hh
    | cons c1 l =>
      simp only [List.head?_cons, Option.getD_some, Option.some.injEq] at hh
      exact ⟨l, by rw [hh]⟩

theorem crlfStep_cr_nl (l : Str) (ls : List Str) :
    crlfStep '\r' (('\n' :: l) :: ls) = [] :: l :: ls := by
  unfold crlfStep
  rw [if_pos ⟨rfl, rfl⟩]
  rfl

theorem splitCrlf_cons (cs : Str) : ∃ s ss, splitCrlf cs = s :: ss := by
  induction cs with
  | nil => exact ⟨[], [], rfl⟩
  | cons c cs ih =>
    obtain ⟨s, ss, hs⟩ := ih
    simp only [splitCrlf, hs]
    unfold crlfStep
    split
    · exact ⟨[], _, rfl⟩
    · exact ⟨c :: s, ss, rfl⟩

theorem splitCrlf_append {xs rest : Str} (hx : ∀ a ∈ xs, a ≠ '\n') :
    splitCrlf (xs ++ '\r' :: '\n' :: rest) = xs :: splitCrlf rest := by
  induction xs with
  | nil =>
    obtain ⟨s, ss, hs⟩ := splitCrlf_cons rest
    simp only [List.nil_append, splitCrlf, hs]
    rw [crlfStep_ne '\n' s ss (by rintro ⟨hc, -⟩; exact absurd hc (by decide))]
    rw [crlfStep_cr_nl]
  | cons x xs ih =>
    have hx' : ∀ a ∈ xs, a ≠ '\n' := fun a ha => hx a (List.mem_cons_of_mem x ha)
    have hxne : x ≠ '\n' := hx x (List.mem_cons_self x xs)
    simp only [List.cons_append, splitCrlf, List.append_eq]
    rw [ih hx']
    rw [crlfStep_ne x xs _ ?_]
    rintro ⟨-, l, hl⟩
    exact hx' '\n' (hl ▸ List.mem_cons_self '\n' l) rfl

theorem linesOf_single_row {payload : Str} (h : ∀ a ∈ payload, a ≠ '\n') :
    linesOfContent (payload ++ "\r\n".data) = [payload] := by
  unfold linesOfContent
  have h0 : payload ++ "\r\n".data = payload ++ '\r' :: '\n' :: ([] : Str) := rfl
  rw [h0, splitCrlf_append h]
  have h1 : payload :: splitCrlf [] = [payload] ++ [[]] := rfl
  rw [h1, List.getLast?_concat, List.dropLast_concat, if_pos rfl]

theorem needsQuote_false_mem {f : Str} (h : needsQuote f = false) :
    ∀ a ∈ f, a ≠ ',' ∧ a ≠ '"' ∧ a ≠ '\r' ∧ a ≠ '\n' := by
  intro a ha
  unfold needsQuote at h
  rw [List.any_eq_false] at h
  have h2 := h a ha
  simp only [Bool.or_eq_true, decide_eq_true_eq, not_or] at h2
  exact ⟨h2.1.1.1, h2.1.1.2, h2.1.2, h2.2⟩

theorem unescapeQuoted_dup (f : Str) (rest : Str) (hrest : rest.head? ≠ some '"') :
    unescapeQuoted (dupQuotes f ++ '"' :: rest) = some (f, rest) := by
  induction f with
  | nil =>
    simp only [dupQuotes, List.nil_append]
    cases rest with
    | nil => rfl
    | cons c2 cs2 =>
      have hne : c2 ≠ '"' := by
        intro hh
        exact hrest (by rw [hh]; rfl)
      simp [unescapeQuoted, hne]
  | cons c f ih =>
    by_cases hc : c = '"'
    · subst hc
      have hd : dupQuotes ('"' :: f) = '"' :: '"' :: dupQuotes f := by
        simp [dupQuotes]
      rw [hd, List.cons_append, List.cons_append]
      have hstep : unescapeQuoted ('"' :: '"' :: (dupQuotes f ++ '"' :: rest)) =
          (unescapeQuoted (dupQuotes f ++ '"' :: rest)).map
            (fun p => ('"' :: p.1, p.2)) := rfl
      rw [hstep, ih]
      rfl
    · have hd : dupQuotes (c :: f) = c :: dupQuotes f := by
        simp [dupQuotes, hc]
      rw [hd, List.cons_append]
      have hstep : unescapeQuoted (c :: (dupQuotes f ++ '"' :: rest)) =
          (unescapeQuoted (dupQuotes f ++ '"' :: rest)).map
            (fun p => (c :: p.1, p.2)) := by
        conv_lhs => rw [unescapeQuoted.eq_def]
        simp [hc]
      rw [hstep, ih]
      rfl

theorem takeThroughPat_comma_none {f : Str} (h : ∀ a ∈ f, a ≠ ',') :
    takeThroughPat [','] f = none := by
  induction f with
  | nil => rfl
  | cons c cs ih =>
    unfold takeThroughPat
    rw [if_neg ?_, ih (fun a ha => h a (List.mem_cons_of_mem c ha))]
    have hc : c ≠ ',' := h c (List.mem_cons_self c cs)
    simp [List.isPrefixOf, Ne.symm hc]

theorem takeThroughPat_comma_some {f : Str} (rest : Str) (h : ∀ a ∈ f, a ≠ ',') :
    takeThroughPat [','] (f ++ ',' :: rest) = some (f ++ [','], rest) := by
  induction f with
  | nil =>
    simp only [List.nil_append]
    unfold takeThroughPat
    rw [if_pos (by simp [List.isPrefixOf])]
    simp
  | cons c cs ih =>
    have hc : c ≠ ',' := h c (List.mem_cons_self c cs)
    simp only [List.cons_append]
    unfold takeThroughPat
    rw [if_neg (by simp [List.isPrefixOf, Ne.symm hc]),
      ih (fun a ha => h a (List.mem_cons_of_mem c ha))]

theorem parseFieldsF_roundtrip (fields : List Str) :
    ∀ fuel : Nat, fields ≠ [] →
      (joinSep ',' (fields.map quoteField)).length ≤ fuel →
      parseFieldsF fuel (joinSep ',' (fields.map quoteField)) = some fields := by
  induction fields with
  | nil => intro fuel hne; exact absurd rfl hne
  | cons f fs ih =>
    intro fuel _ hfuel
    cases fs with
    | nil =>
      simp only [List.map_cons, List.map_nil, joinSep] at hfuel ⊢
      by_cases hq : needsQuote f
      · rw [quoteField, if_pos hq] at hfuel ⊢
        cases fuel with
        | zero => simp at hfuel
        | succ n =>
          unfold parseFieldsF
          rw [if_pos rfl]
          have hd : dupQuotes f ++ ['"'] = dupQuotes f ++ '"' :: ([] : Str) := rfl
          rw [hd, unescapeQuoted_dup f [] (by simp)]
      · rw [quoteField, if_neg hq] at hfuel ⊢
        cases f with
        | nil => cases fuel <;> rfl
        | cons c cs =>
          cases fuel with
          | zero => simp at hfuel
          | succ n =>
            have hcom : ∀ a ∈ c :: cs, a ≠ ',' :=
              fun a ha => (needsQuote_false_mem (Bool.not_eq_true _ ▸ hq) a ha).1
            have hcq : c ≠ '"' :=
              (needsQuote_false_mem (Bool.not_eq_true _ ▸ hq) c
                (List.mem_cons_self c cs)).2.1
            unfold parseFieldsF
            rw [if_neg hcq, takeThroughPat_comma_none hcom]
    | cons f2 fs2 =>
      have hjoin : joinSep ',' ((f :: f2 :: fs2).map quoteField) =
          quoteField f ++ ',' :: joinSep ',' ((f2 :: fs2).map quoteField) := by
        simp only [List.map_cons, joinSep]
      rw [hjoin] at hfuel ⊢
      by_cases hq : needsQuote f
      · rw [quoteField, if_pos hq] at hfuel ⊢
        cases fuel with
        | zero => simp at hfuel
        | succ n =>
          have hshape : ('"' :: (dupQuotes f ++ ['"'])) ++
              ',' :: joinSep ',' ((f2 :: fs2).map quoteField) =
              '"' :: (dupQuotes f ++
                '"' :: ',' :: joinSep ',' ((f2 :: fs2).map quoteField)) := by
            simp
          rw [hshape] at hfuel ⊢
          unfold parseFieldsF
          rw [if_pos rfl, unescapeQuoted_dup f _ (by simp)]
          have hrec : (joinSep ',' ((f2 :: fs2).map quoteField)).length ≤ n := by
            simp only [List.length_cons, List.length_append] at hfuel
            omega
          simp
          simpa using ih n (by simp) hrec
      · rw [quoteField, if_neg hq] at hfuel ⊢
        have hcom : ∀ a ∈ f, a ≠ ',' :=
          fun a ha => (needsQuote_false_mem (Bool.not_eq_true _ ▸ hq) a ha).1
        cases f with
        | nil =>
          simp only [List.nil_append] at hfuel ⊢
          cases fuel with
          | zero => simp at hfuel
          | succ n =>
            unfold parseFieldsF
            rw [if_neg (by decide)]
            have h0 : (',' :: joinSep ',' ((f2 :: fs2).map quoteField)) =
                ([] : Str) ++ ',' :: joinSep ',' ((f2 :: fs2).map quoteField) := rfl
            rw [h0, takeThroughPat_comma_some _ (by simp)]
            have hrec : (joinSep ',' ((f2 :: fs2).map quoteField)).length ≤ n := by
              simp only [List.length_cons] at hfuel
              omega
            simp
            simpa using ih n (by simp) hrec
        | cons c cs =>
          cases fuel with
          | zero => simp at hfuel
          | succ n =>
            have hcq : c ≠ '"' :=
              (needsQuote_false_mem (Bool.not_eq_true _ ▸ hq) c
                (List.mem_cons_self c cs)).2.1
            simp only [List.cons_append] at hfuel ⊢
            unfold parseFieldsF
            rw [if_neg hcq]
            have h0 : (cs ++ ',' :: joinSep ',' ((f2 :: fs2).map quoteField)) =
                cs ++ ',' :: joinSep ',' ((f2 :: fs2).map quoteField) := rfl
            have hstep := takeThroughPat_comma_some
              (f := c :: cs) (joinSep ',' ((f2 :: fs2).map quoteField)) hcom
            simp only [List.cons_append] at hstep
            rw [hstep]
            have hrec : (joinSep ',' ((f2 :: fs2).map quoteField)).length ≤ n := by
              simp only [List.length_cons, List.length_append] at hfuel
              omega
            have hdl : ((c :: cs) ++ [',']).dropLast = c :: cs :=
              List.dropLast_concat
            simp only [List.cons_append] at hdl
            simp [hdl]
            simpa using ih n (by simp) hrec

theorem mem_joinSep {sep : Char} {ls : List Str} {a : Char}
    (h : a ∈ joinSep sep ls) : a = sep ∨ ∃ l ∈ ls, a ∈ l := by
  induction ls with
  | nil => simp [joinSep] at h
  | cons l ls ih =>
    cases ls with
    | nil =>
      right
      exact ⟨l, List.mem_cons_self l [], by simpa [joinSep] using h⟩
    | cons l2 ls2 =>
      simp only [joinSep] at h
      rcases List.mem_append.mp h with h1 | h1
      · right; exact ⟨l, List.mem_cons_self _ _, h1⟩
      · rcases List.mem_cons.mp h1 with h2 | h2
        · left; exact h2
        · rcases ih h2 with h3 | ⟨l3, hl3, ha⟩
          · left; exact h3
          · right; exact ⟨l3, List.mem_cons_of_mem _ hl3, ha⟩

theorem mem_dupQuotes {f : Str} {a : Char} (h : a ∈ dupQuotes f) :
    a = '"' ∨ a ∈ f := by
  induction f with
  | nil => simp [dupQuotes] at h
  | cons c cs ih =>
    unfold dupQuotes at h
    split at h
    · rcases List.mem_cons.mp h with h1 | h1
      · left; exact h1
      · rcases List.mem_cons.mp h1 with h2 | h2
        · left; exact h2
        · rcases ih h2 with h3 | h3
          · left; exact h3
          · right; exact List.mem_cons_of_mem c h3
    · rcases List.mem_cons.mp h with h1 | h1
      · right; exact h1 ▸ List.mem_cons_self c cs
      · rcases ih h1 with h3 | h3
        · left; exact h3
        · right; exact List.mem_cons_of_mem c h3

theorem mem_quoteField {f : Str} {a : Char} (h : a ∈ quoteField f) :
    a = '"' ∨ a ∈ f := by
  unfold quoteField at h
  split at h
  · rcases List.mem_cons.mp h with h1 | h1
    · left; exact h1
    · rcases List.mem_append.mp h1 with h2 | h2
      · exact mem_dupQuotes h2
      · left; simpa using h2
  · right; exact h

theorem isoformat_no_nl (dt : Datetime) : ∀ a ∈ dt.isoformat, a ≠ '\n' := by
  intro a ha
  simp only [Datetime.isoformat, pad4, pad2, offText, List.cons_append,
    List.nil_append, List.mem_cons, List.not_mem_nil, or_false] at ha
  rcases ha with rfl | rfl | rfl | rfl | rfl | rfl | rfl | rfl | rfl | rfl |
    rfl | rfl | rfl | rfl | rfl | rfl | rfl | rfl | rfl | rfl | rfl | rfl |
    rfl | rfl | rfl
  all_goals first
    | exact digitCh_ne_nl _
    | decide
    | (split <;> decide)

theorem payload_no_nl {u msg iso : Str}
    (hu : ∀ a ∈ u, a ≠ '\n') (hm : ∀ a ∈ msg, a ≠ '\n')
    (hi : ∀ a ∈ iso, a ≠ '\n') :
    ∀ a ∈ joinSep ',' ([u, msg, iso].map quoteField), a ≠ '\n' := by
  intro a ha
  rcases mem_joinSep ha with rfl | ⟨l, hl, hal⟩
  · decide
  · simp only [List.map_cons, List.map_nil, List.mem_cons, List.not_mem_nil,
      or_false] at hl
    rcases hl with rfl | rfl | rfl
    · rcases mem_quoteField hal with rfl | h2
      · decide
      · exact hu a h2
    · rcases mem_quoteField hal with rfl | h2
      · decide
      · exact hm a h2
    · rcases mem_quoteField hal with rfl | h2
      · decide
      · exact hi a h2

theorem joinSep_cons2_ne_nil (sep : Char) (x y : Str) (ys : List Str) :
    joinSep sep (x :: y :: ys) ≠ [] := by
  simp only [joinSep]
  cases x <;> simp

/-- C4: any message the extractor produces survives the cache round trip:
writing it as a CSV row and reading that row back through the cache reader
yields the same message — identical user text, identical body text, and a
timestamp equal to the original (in particular to minute precision). -/
theorem cache_row_roundtrip (content frag : Str) (m : Message)
    (hfrag : frag ∈ scanFragments content)
    (hok : parse_message_from_html frag = .ok m) :
    readCacheContent (csvRow m) = some [m] := by
  obtain ⟨husub, hmsub, hvalid, -⟩ := parse_message_from_html_ok hok
  have hnl := scanFragments_no_nl hfrag
  have hu : ∀ a ∈ m.user, a ≠ '\n' := fun a ha => hnl a (husub a ha)
  have hm2 : ∀ a ∈ m.message, a ≠ '\n' := fun a ha => hnl a (hmsub a ha)
  have hpl := payload_no_nl hu hm2 (isoformat_no_nl m.created)
  have hrow : rowOfLine
      (joinSep ',' ([m.user, m.message, m.created.isoformat].map quoteField)) =
      some m := by
    obtain ⟨p0, prest, hp⟩ :=
      List.exists_cons_of_ne_nil (joinSep_cons2_ne_nil ',' (quoteField m.user)
        (quoteField m.message) [quoteField m.created.isoformat])
    have hp' : joinSep ','
        ([m.user, m.message, m.created.isoformat].map quoteField) = p0 :: prest := by
      simpa using hp
    rw [hp']
    show (parseFields (p0 :: prest)).bind parse_message_from_csv_row = some m
    rw [← hp']
    have hparse : parseFields
        (joinSep ',' ([m.user, m.message, m.created.isoformat].map quoteField)) =
        some [m.user, m.message, m.created.isoformat] := by
      unfold parseFields
      exact parseFieldsF_roundtrip _ _ (by simp) le_rfl
    rw [hparse]
    show (dateutil_parse m.created.isoformat).map
      (fun dt => ⟨m.user, m.message, dt⟩) = some m
    rw [dateutil_parse_isoformat hvalid]
    rfl
  unfold csvRow csv_write_row readCacheContent
  rw [linesOf_single_row hpl]
  unfold readRows
  rw [hrow]
  rfl

theorem cache_row_roundtrip_witness :
    (aliceLine ∈ scanFragments aliceContent ∧
      parse_message_from_html aliceLine =
        .ok ⟨"Alice".data, "hello".data, ⟨2022, 1, 3, 9, 15, 0, 0⟩⟩) ∧
    readCacheContent
        (csvRow ⟨"Alice".data, "hello".data, ⟨2022, 1, 3, 9, 15, 0, 0⟩⟩) =
      some [⟨"Alice".data, "hello".data, ⟨2022, 1, 3, 9, 15, 0, 0⟩⟩] :=
  ⟨⟨by decide, by decide⟩,
    cache_row_roundtrip aliceContent aliceLine
      ⟨"Alice".data, "hello".data, ⟨2022, 1, 3, 9, 15, 0, 0⟩⟩
      (by decide) (by decide)⟩

end MessageAnalysis
